import Mathlib

/-!
Verification of the mini_afl_py fuzzing engine against its specification.

Each definition is a shallow embedding of a function of the source tree
(`src/mini_afl_py/...`); byte arrays are modelled as `List ℕ` of byte
values, machine integers as `ℕ`/`ℤ` with explicit `% 2^w` where the source
wraps, Python floats that only ever hold exact decimal arithmetic in the
modelled paths as `ℚ`, and sources of nondeterminism of the source
(`random.random()`, `time.time()`, the jittered score) as explicit oracle
arguments.
-/

namespace MiniAFL

/-! ## Coverage bitmaps (`instrumentation/coverage.py`)

A `CoverageData` object holds `self.size` and `self.bitmap`, a bytearray
with `len(self.bitmap) == self.size` at all times (established by
`__init__` and never broken, since no operation changes the length).  We
therefore model the object by its byte list alone; the stored `size` is
the list's length. -/

/-- Embedding of `CoverageData.__len__`: `sum(1 for b in self.bitmap if b)` — the number
of nonzero bytes of the bitmap. -/
def popcount : List ℕ → ℕ
  | [] => 0
  | b :: bs => (if b ≠ 0 then 1 else 0) + popcount bs

/-- Embedding of `CoverageData.merge`: `for i in range(min(self.size, other.size)): if
other.bitmap[i]: self.bitmap[i] = 1`.  The first argument is `self`, the
second `other`; bytes of `self` past the common length are untouched. -/
def mergeBytes : List ℕ → List ℕ → List ℕ
  | xs, [] => xs
  | [], _ => []
  | x :: xs, y :: ys => (if y ≠ 0 then 1 else x) :: mergeBytes xs ys

/-- Embedding of `CoverageData.merge_and_count_new`: one pass that sets
`self.bitmap[i] = 1` and counts whenever `other.bitmap[i]` is truthy and
`self.bitmap[i]` is not.  Returns the merged bitmap and the count of
`0 → 1` transitions. -/
def mergeAndCountNew : List ℕ → List ℕ → List ℕ × ℕ
  | xs, [] => (xs, 0)
  | [], _ => ([], 0)
  | x :: xs, y :: ys =>
    let r := mergeAndCountNew xs ys
    if y ≠ 0 ∧ x = 0 then (1 :: r.1, r.2 + 1) else (x :: r.1, r.2)

lemma popcount_mergeBytes (a : List ℕ) : ∀ b : List ℕ,
    popcount (mergeBytes a b) = popcount a + (mergeAndCountNew a b).2 := by
  induction a with
  | nil => intro b; cases b <;> simp [mergeBytes, mergeAndCountNew, popcount]
  | cons x xs ih =>
    intro b
    cases b with
    | nil => simp [mergeBytes, mergeAndCountNew]
    | cons y ys =>
      by_cases hy : y = 0
      · simp [mergeBytes, mergeAndCountNew, popcount, hy, ih ys]
        omega
      · by_cases hx : x = 0
        · simp [mergeBytes, mergeAndCountNew, popcount, hy, hx, ih ys]
          omega
        · simp [mergeBytes, mergeAndCountNew, popcount, hy, hx, ih ys]
          omega

/-- C2: for bitmaps `A`, `B` of one size, the popcount of `A` after
`A.merge(B)` equals the popcount of `A` before the merge plus the value
`A.merge_and_count_new(B)` returns when called on the pre-merge `A`. -/
theorem c2_merge_popcount_additive (a b : List ℕ) (_h : a.length = b.length) :
    popcount (mergeBytes a b) = popcount a + (mergeAndCountNew a b).2 :=
  popcount_mergeBytes a b

/-- Witness for C2 at the concrete bitmaps `[0, 5, 0]` and `[1, 3, 0]`. -/
theorem c2_merge_popcount_additive_witness :
    ([0, 5, 0] : List ℕ).length = ([1, 3, 0] : List ℕ).length ∧
      popcount (mergeBytes [0, 5, 0] [1, 3, 0]) =
        popcount [0, 5, 0] + (mergeAndCountNew [0, 5, 0] [1, 3, 0]).2 :=
  ⟨by decide, c2_merge_popcount_additive [0, 5, 0] [1, 3, 0] (by decide)⟩

lemma popcount_mergeAndCountNew_fst (a : List ℕ) : ∀ b : List ℕ,
    popcount (mergeAndCountNew a b).1 = popcount a + (mergeAndCountNew a b).2 := by
  induction a with
  | nil => intro b; cases b <;> simp [mergeAndCountNew, popcount]
  | cons x xs ih =>
    intro b
    cases b with
    | nil => simp [mergeAndCountNew]
    | cons y ys =>
      by_cases hy : y = 0
      · simp [mergeAndCountNew, popcount, hy, ih ys]
        omega
      · by_cases hx : x = 0
        · simp [mergeAndCountNew, popcount, hy, hx, ih ys]
          omega
        · simp [mergeAndCountNew, popcount, hy, hx, ih ys]
          omega

lemma mergeAndCountNew_getD (a : List ℕ) : ∀ (b : List ℕ) (j : ℕ),
    a.getD j 0 ≠ 0 → (mergeAndCountNew a b).1.getD j 0 ≠ 0 := by
  induction a with
  | nil => intro b j h; simp at h
  | cons x xs ih =>
    intro b j h
    cases b with
    | nil => simpa [mergeAndCountNew] using h
    | cons y ys =>
      cases j with
      | zero =>
        simp at h
        by_cases hy : y = 0 <;> simp [mergeAndCountNew, hy, h]
      | succ j =>
        rw [List.getD_cons_succ] at h
        have hih := ih ys j h
        by_cases hy : y = 0 <;> by_cases hx : x = 0 <;>
          simpa [mergeAndCountNew, hy, hx] using hih

/-! ## The monitor (`core/monitor.py`)

`Monitor.record_run` is modelled as a pure state transformer.  The
timestamp `time.time()`, the sample, and the outcome of the
artifact-saving `try` block (a filesystem write, `some p` when the write
to path `p` succeeded) are supplied as inputs of the call. -/

/-- The arguments of one `Monitor.record_run` call together with its
environment (timestamp, artifact-write outcome). -/
structure RunInput where
  ts : ℚ
  sampleId : Option ℕ
  sample : List ℕ
  status : String
  wallTime : ℚ
  cov : Option (List ℕ)
  artifactPath : Option String
  savedPath : Option String

/-- The `RunRecord` dataclass of `core/monitor.py` (its exact fields). -/
structure RunRecord where
  timestamp : ℚ
  sampleId : Option ℕ
  status : String
  wallTime : ℚ
  novelty : ℕ
  cumCoverage : ℕ
  artifactPath : Option String

/-- The mutable state of a `Monitor`: run journal, cumulative coverage
bitmap, the cached cumulative size `_cum_cov_size`, the bounded coverage
history `_cov_history`, and `novelty_threshold`. -/
structure MonitorState where
  records : List RunRecord
  cumulative : List ℕ
  cumSize : ℕ
  covHistory : List (ℚ × ℕ)
  noveltyThreshold : ℕ

/-- Embedding of `Monitor.record_run`: merge the run's coverage (when given) into the
cumulative bitmap via `merge_and_count_new`, bump the cached size by the
novelty, sample the coverage history (bounded at 1024 entries), append the
run record, and finalize the record's artifact path from the
novelty-triggered save. -/
def recordRun (m : MonitorState) (i : RunInput) : MonitorState × RunRecord :=
  let merged :=
    match i.cov with
    | some c => mergeAndCountNew m.cumulative c
    | none => (m.cumulative, 0)
  let novelty := merged.2
  let size' := m.cumSize + novelty
  let hist0 := m.covHistory ++ [(i.ts, size')]
  let hist1 := if 1024 < hist0.length then hist0.tail else hist0
  let apath :=
    if m.noveltyThreshold ≤ novelty then
      match i.savedPath with
      | some p => match i.artifactPath with | none => some p | some q => some q
      | none => i.artifactPath
    else i.artifactPath
  let r0 : RunRecord := ⟨i.ts, i.sampleId, i.status, i.wallTime, novelty, size', apath⟩
  (⟨m.records ++ [r0], merged.1, size', hist1, m.noveltyThreshold⟩, r0)

/-- A whole sequence of `record_run` calls, in order. -/
def recordRuns (m : MonitorState) (l : List RunInput) : MonitorState :=
  l.foldl (fun s i => (recordRun s i).1) m

/-- Embedding of `Monitor.__init__`: empty journal, all-zero cumulative bitmap of the
default `CoverageData` size 65536, cached size 0, empty history. -/
def initialMonitor (threshold : ℕ) : MonitorState :=
  ⟨[], List.replicate 65536 0, 0, [], threshold⟩

lemma initialMonitor_records (t : ℕ) : (initialMonitor t).records = [] := rfl

lemma recordRun_cumSize_le (m : MonitorState) (i : RunInput) :
    m.cumSize ≤ ((recordRun m i).1).cumSize := by
  cases hc : i.cov <;> simp [recordRun, hc]

lemma recordRun_popcount_le (m : MonitorState) (i : RunInput) :
    popcount m.cumulative ≤ popcount ((recordRun m i).1).cumulative := by
  cases hc : i.cov with
  | none => simp [recordRun, hc]
  | some c =>
    simp only [recordRun, hc]
    have := popcount_mergeAndCountNew_fst m.cumulative c
    omega

lemma recordRun_getD (m : MonitorState) (i : RunInput) (j : ℕ)
    (h : m.cumulative.getD j 0 ≠ 0) :
    ((recordRun m i).1).cumulative.getD j 0 ≠ 0 := by
  cases hc : i.cov with
  | none => simpa [recordRun, hc] using h
  | some c =>
    simp only [recordRun, hc]
    exact mergeAndCountNew_getD m.cumulative c j h

lemma recordRuns_cumSize_le (l : List RunInput) : ∀ m : MonitorState,
    m.cumSize ≤ (recordRuns m l).cumSize := by
  induction l with
  | nil => intro m; simp [recordRuns]
  | cons i l ih =>
    intro m
    have h1 := recordRun_cumSize_le m i
    have h2 := ih ((recordRun m i).1)
    simp only [recordRuns, List.foldl_cons] at *
    omega

lemma recordRuns_popcount_le (l : List RunInput) : ∀ m : MonitorState,
    popcount m.cumulative ≤ popcount (recordRuns m l).cumulative := by
  induction l with
  | nil => intro m; simp [recordRuns]
  | cons i l ih =>
    intro m
    have h1 := recordRun_popcount_le m i
    have h2 := ih ((recordRun m i).1)
    simp only [recordRuns, List.foldl_cons] at *
    omega

lemma recordRuns_getD (l : List RunInput) : ∀ (m : MonitorState) (j : ℕ),
    m.cumulative.getD j 0 ≠ 0 → (recordRuns m l).cumulative.getD j 0 ≠ 0 := by
  induction l with
  | nil => intro m j h; simpa [recordRuns] using h
  | cons i l ih =>
    intro m j h
    have h1 := recordRun_getD m i j h
    simpa only [recordRuns, List.foldl_cons] using ih ((recordRun m i).1) j h1

lemma recordRuns_pairwise (l : List RunInput) : ∀ m : MonitorState,
    (∀ r ∈ m.records, r.cumCoverage ≤ m.cumSize) →
    List.Pairwise (· ≤ ·) (m.records.map RunRecord.cumCoverage) →
    List.Pairwise (· ≤ ·) ((recordRuns m l).records.map RunRecord.cumCoverage) := by
  induction l with
  | nil => intro m _ hp; simpa [recordRuns] using hp
  | cons i l ih =>
    intro m hb hp
    simp only [recordRuns, List.foldl_cons]
    refine ih ((recordRun m i).1) ?_ ?_
    · intro r hr
      have hrec : ((recordRun m i).1).records =
          m.records ++ [(recordRun m i).2] := by
        cases hc : i.cov <;> simp [recordRun, hc]
      have hsize : m.cumSize ≤ ((recordRun m i).1).cumSize :=
        recordRun_cumSize_le m i
      have hcum : ((recordRun m i).2).cumCoverage = ((recordRun m i).1).cumSize := by
        cases hc : i.cov <;> simp [recordRun, hc]
      rw [hrec] at hr
      rcases List.mem_append.1 hr with hold | hnew
      · exact le_trans (hb r hold) hsize
      · simp at hnew
        subst hnew
        exact le_of_eq hcum
    · have hrec : ((recordRun m i).1).records =
          m.records ++ [(recordRun m i).2] := by
        cases hc : i.cov <;> simp [recordRun, hc]
      have hsize : m.cumSize ≤ ((recordRun m i).1).cumSize :=
        recordRun_cumSize_le m i
      have hcum : ((recordRun m i).2).cumCoverage = ((recordRun m i).1).cumSize := by
        cases hc : i.cov <;> simp [recordRun, hc]
      rw [hrec, List.map_append, List.pairwise_append]
      refine ⟨hp, by simp, ?_⟩
      intro a ha b hbmem
      simp at hbmem
      rcases List.mem_map.1 ha with ⟨r, hr, hra⟩
      subst hbmem hra
      calc r.cumCoverage ≤ m.cumSize := hb r hr
        _ ≤ ((recordRun m i).1).cumSize := hsize
        _ = ((recordRun m i).2).cumCoverage := hcum.symm

/-- C1: over any sequence of `Monitor.record_run` calls, the popcount of
the cumulative bitmap and the cached cumulative size are monotonically
non-decreasing, no call clears a set byte of `cumulative_cov`, and the
cached `cum_coverage` values stored in the emitted run records (starting
from a fresh monitor) form a non-decreasing sequence. -/
theorem c1_cumulative_monotone (l : List RunInput) (m : MonitorState) (t : ℕ) :
    popcount m.cumulative ≤ popcount (recordRuns m l).cumulative ∧
    m.cumSize ≤ (recordRuns m l).cumSize ∧
    (∀ j, m.cumulative.getD j 0 ≠ 0 → (recordRuns m l).cumulative.getD j 0 ≠ 0) ∧
    List.Pairwise (· ≤ ·)
      ((recordRuns (initialMonitor t) l).records.map RunRecord.cumCoverage) :=
  ⟨recordRuns_popcount_le l m, recordRuns_cumSize_le l m,
    fun j => recordRuns_getD l m j,
    recordRuns_pairwise l (initialMonitor t)
      (fun r hr => by rw [initialMonitor_records] at hr; cases hr)
      (by rw [initialMonitor_records]; exact List.Pairwise.nil)⟩

/-! ## The scheduler (`core/scheduler.py`)

`Scheduler.report_result` is modelled as a pure state transformer.  Its
nondeterministic ingredients are passed as an oracle: `time.time()`
(`now`), the `random.random() < 0.01` exploration draw, and
`int(self.calculate_score(cand))` — the score involves float arithmetic,
`math.log1p` and an explicit ±1% random jitter, so its integer truncation
is an input of the model (`scoreVal`).  SHA-1 signatures are modelled by
the hashed bytes themselves (only equality of signatures is ever used). -/

/-- The `Candidate` dataclass of `core/scheduler.py` (its exact fields). -/
structure Candidate where
  id : ℕ
  data : List ℕ
  energy : ℤ
  cycles : ℕ
  avgExecTime : ℚ
  hits : ℕ
  lastNovelty : ℕ
  covSig : Option (List ℕ)

/-- The scheduler state that `add_seed`/`report_result` touch: `_next_id`,
the corpus (an insertion-ordered id-keyed dict, modelled as a list),
`_queue`, the `_favored` id → timestamp dict, and the cumulative
coverage bitmap. -/
structure SchedulerState where
  nextId : ℕ
  corpus : List Candidate
  queue : List ℕ
  favored : List (ℕ × ℚ)
  cumulative : List ℕ

/-- Assignment `d[k] = v` on an insertion-ordered dict modelled as a list:
replace the entry with the same key in place, else append. -/
def dictInsertCand : List Candidate → Candidate → List Candidate
  | [], c => [c]
  | x :: xs, c => if x.id = c.id then c :: xs else x :: dictInsertCand xs c

/-- Assignment `self._favored[cid] = ts`. -/
def favInsert : List (ℕ × ℚ) → ℕ → ℚ → List (ℕ × ℚ)
  | [], i, t => [(i, t)]
  | p :: ps, i, t => if p.1 = i then (i, t) :: ps else p :: favInsert ps i t

/-- Embedding of `Scheduler.add_seed`: allocate the next id, store a fresh `Candidate`
with the given energy (and `cov_sig=None`) in the corpus, append the id to
the queue, and return the id. -/
def addSeed (s : SchedulerState) (seed : List ℕ) (energy : ℤ) :
    SchedulerState × ℕ :=
  let cid := s.nextId
  ({ s with
      nextId := cid + 1
      corpus := dictInsertCand s.corpus ⟨cid, seed, energy, 0, 0, 0, 0, none⟩
      queue := s.queue ++ [cid] }, cid)

/-- Embedding of `CoverageData.points`: the set of indices of nonzero bytes. -/
def pointsOf (bm : List ℕ) : Finset ℕ :=
  (Finset.range bm.length).filter (fun i => bm.getD i 0 ≠ 0)

/-- Embedding of `len(set(cov.points) - set(cumulative.points))`: the novelty count of
`report_result`. -/
def noveltyCount (cum cov : List ℕ) : ℕ := (pointsOf cov \ pointsOf cum).card

/-- Embedding of `CoverageData.to_bitmap(size)`: a copy when `size` equals the bitmap's
size, else a remap of nonzero bytes onto indices `i % size`. -/
def toBitmap (bm : List ℕ) (size : ℕ) : List ℕ :=
  if size = bm.length then bm
  else
    (List.range bm.length).foldl
      (fun out i => if bm.getD i 0 ≠ 0 then out.set (i % size) 1 else out)
      (List.replicate size 0)

/-- The default `BITMAP_SIZE` of `instrumentation/coverage.py`. -/
def BITMAP_SIZE : ℕ := 65536

/-- Python truthiness of a `CoverageData` (`if cov and ...`): the class
defines `__len__` as the popcount, so an all-zero bitmap is falsy. -/
def covTruthy (c : List ℕ) : Bool := popcount c != 0

/-- The coverage signature `report_result` computes for a result:
`sha1(bytes(cov.to_bitmap()))` when a truthy coverage is present (the hash
is modelled by the hashed bytes), `None` otherwise. -/
def resultSig (cov? : Option (List ℕ)) : Option (List ℕ) :=
  match cov? with
  | some cov => if covTruthy cov then some (toBitmap cov BITMAP_SIZE) else none
  | none => none

/-- The novelty `report_result` computes against the scheduler's own
cumulative coverage (0 when coverage is absent or falsy). -/
def resultNovelty (cum : List ℕ) (cov? : Option (List ℕ)) : ℕ :=
  match cov? with
  | some cov => if covTruthy cov then noveltyCount cum cov else 0
  | none => 0

/-- The scheduler's cumulative bitmap after `report_result` merged a
truthy coverage into it. -/
def resultCumulative (cum : List ℕ) (cov? : Option (List ℕ)) : List ℕ :=
  match cov? with
  | some cov => if covTruthy cov then mergeBytes cum cov else cum
  | none => cum

/-- The duplicate check of `report_result`: a candidate matches when both
the result's signature and the candidate's `cov_sig` are present (SHA-1
hex strings are always truthy) and equal. -/
def sigMatches (sig : Option (List ℕ)) (c : Candidate) : Bool :=
  match sig, c.covSig with
  | some a, some b => a == b
  | _, _ => false

/-- Replacement of the first element satisfying `p` — the in-place update
of the (first) matching corpus entry found by the `for` loop. -/
def updateFirst (p : Candidate → Bool) (f : Candidate → Candidate) :
    List Candidate → List Candidate
  | [] => []
  | c :: cs => if p c then f c :: cs else c :: updateFirst p f cs

/-- Update of the dict entry with key `cid` (`self._corpus[cid]`). -/
def updateById (l : List Candidate) (cid : ℕ) (f : Candidate → Candidate) :
    List Candidate :=
  l.map (fun c => if c.id = cid then f c else c)

/-- The result argument of `report_result` (a `CommandTargetResult` view:
status string, wall time, optional coverage bitmap). -/
structure RunResult where
  status : String
  wallTime : ℚ
  coverage : Option (List ℕ)

/-- Oracle for the nondeterminism inside one `report_result` call. -/
structure SchedOracle where
  now : ℚ
  exploreDraw : Bool
  scoreVal : ℤ

/-- Embedding of `Scheduler.report_result`: compute novelty and signature, merge the
coverage into the cumulative bitmap, then either update the first
signature-matching corpus entry (exec-time EMA with α = 0.3, `hits`,
novelty energy boost and favored mark, crash/hang energy clamp to [1, 3]
or score-based energy recomputation) and return its id, or admit the
sample (novelty > 0: energy `min(20, max(6, 1 + 3·novelty))`, signature,
`last_novelty` and favored mark; else with the 1% exploration draw at
energy 1), or return `None`.  Crash/hang samples are never admitted. -/
def reportResult (s : SchedulerState) (sample : List ℕ) (res : RunResult)
    (o : SchedOracle) : SchedulerState × Option ℕ :=
  let novelty := resultNovelty s.cumulative res.coverage
  let covSig := resultSig res.coverage
  let s1 : SchedulerState :=
    { s with cumulative := resultCumulative s.cumulative res.coverage }
  match s1.corpus.find? (sigMatches covSig) with
  | some cand =>
    let t := res.wallTime
    let avg' := if cand.avgExecTime ≤ 0 then t else (3 * t + 7 * cand.avgExecTime) / 10
    let boosted :=
      if 0 < novelty then min 20 (cand.energy + (2 + (novelty : ℤ))) else cand.energy
    let lastNov' := if 0 < novelty then novelty else cand.lastNovelty
    let fav1 :=
      if 0 < novelty then favInsert s1.favored cand.id o.now else s1.favored
    let energy' :=
      if res.status = "crash" ∨ res.status = "hang" then max 1 (min boosted 3)
      else min 20 (max 1 o.scoreVal)
    let cand' : Candidate :=
      { cand with avgExecTime := avg', hits := cand.hits + 1,
                  energy := energy', lastNovelty := lastNov' }
    ({ s1 with
        corpus := updateFirst (sigMatches covSig) (fun _ => cand') s1.corpus
        favored := fav1 }, some cand.id)
  | none =>
    if res.status = "crash" ∨ res.status = "hang" then (s1, none)
    else if 0 < novelty then
      let energy := min 20 (max 6 (1 + (novelty : ℤ) * 3))
      let s2 := (addSeed s1 sample energy).1
      let cid := (addSeed s1 sample energy).2
      let s3 : SchedulerState :=
        { s2 with
            corpus := updateById s2.corpus cid (fun c =>
              { c with
                  covSig := (match covSig with | some σ => some σ | none => c.covSig)
                  lastNovelty := novelty })
            favored := favInsert s2.favored cid o.now }
      (s3, some cid)
    else if o.exploreDraw then
      let s2 := (addSeed s1 sample 1).1
      (s2, some (addSeed s1 sample 1).2)
    else (s1, none)

lemma updateFirst_length (p : Candidate → Bool) (f : Candidate → Candidate) :
    ∀ l : List Candidate, (updateFirst p f l).length = l.length := by
  intro l
  induction l with
  | nil => rfl
  | cons x xs ih => by_cases hx : p x <;> simp [updateFirst, hx, ih]

lemma updateFirst_map_of_found {α : Type _} (g : Candidate → α)
    (p : Candidate → Bool) (f : Candidate → Candidate) :
    ∀ (l : List Candidate) (c : Candidate), l.find? p = some c → g (f c) = g c →
      (updateFirst p f l).map g = l.map g
  | [], c => by intro h _; simp at h
  | x :: xs, c => by
    intro h hg
    by_cases hx : p x
    · rw [List.find?_cons_of_pos _ hx] at h
      obtain rfl : x = c := by injection h
      simp [updateFirst, hx, hg]
    · rw [List.find?_cons_of_neg _ hx] at h
      simp only [updateFirst, if_neg hx, List.map_cons]
      rw [updateFirst_map_of_found g p f xs c h hg]

lemma dictInsertCand_append (c : Candidate) :
    ∀ l : List Candidate, (∀ x ∈ l, x.id ≠ c.id) → dictInsertCand l c = l ++ [c] := by
  intro l
  induction l with
  | nil => intro _; rfl
  | cons x xs ih =>
    intro h
    have hx : x.id ≠ c.id := h x (List.mem_cons_self x xs)
    simp only [dictInsertCand, if_neg hx, List.cons_append]
    rw [ih (fun y hy => h y (List.mem_cons_of_mem x hy))]

lemma updateById_append_singleton (l : List Candidate) (c : Candidate)
    (f : Candidate → Candidate) (h : ∀ x ∈ l, x.id ≠ c.id) :
    updateById (l ++ [c]) c.id f = l ++ [f c] := by
  unfold updateById
  rw [List.map_append]
  congr 1
  · have hid : ∀ x ∈ l, (if x.id = c.id then f x else x) = id x :=
      fun x hx => by simp [if_neg (h x hx)]
    rw [List.map_congr_left hid, List.map_id]
  · simp

lemma favInsert_mem (i : ℕ) (t : ℚ) : ∀ l : List (ℕ × ℚ), (i, t) ∈ favInsert l i t := by
  intro l
  induction l with
  | nil => simp [favInsert]
  | cons p ps ih => by_cases hp : p.1 = i <;> simp [favInsert, hp, ih]

/-- C3: a `report_result` call whose result has status `crash` or `hang`
and whose coverage signature matches no corpus candidate returns `None`
and leaves the corpus unchanged. -/
theorem c3_crash_hang_not_admitted (s : SchedulerState) (sample : List ℕ)
    (res : RunResult) (o : SchedOracle)
    (hstatus : res.status = "crash" ∨ res.status = "hang")
    (hnomatch : ∀ c ∈ s.corpus, sigMatches (resultSig res.coverage) c = false) :
    (reportResult s sample res o).2 = none ∧
      (reportResult s sample res o).1.corpus = s.corpus := by
  have hfind : s.corpus.find? (sigMatches (resultSig res.coverage)) = none :=
    List.find?_eq_none.mpr (fun x hx => by simp [hnomatch x hx])
  rcases hstatus with h | h <;> simp [reportResult, hfind, h]

/-- Witness for C3: a crash result with no coverage against an empty
corpus. -/
theorem c3_crash_hang_not_admitted_witness :
    ((RunResult.mk "crash" 0 none).status = "crash" ∨
        (RunResult.mk "crash" 0 none).status = "hang") ∧
      (∀ c ∈ (SchedulerState.mk 1 [] [] [] []).corpus,
        sigMatches (resultSig (RunResult.mk "crash" 0 none).coverage) c = false) ∧
      (reportResult (SchedulerState.mk 1 [] [] [] []) []
          (RunResult.mk "crash" 0 none) ⟨0, false, 1⟩).2 = none ∧
      (reportResult (SchedulerState.mk 1 [] [] [] []) []
            (RunResult.mk "crash" 0 none) ⟨0, false, 1⟩).1.corpus =
        (SchedulerState.mk 1 [] [] [] []).corpus := by
  refine ⟨Or.inl rfl, by simp, ?_, ?_⟩
  · exact (c3_crash_hang_not_admitted _ _ _ _ (Or.inl rfl) (by simp)).1
  · exact (c3_crash_hang_not_admitted _ _ _ _ (Or.inl rfl) (by simp)).2

/-- C4: when the result's coverage signature matches an existing corpus
candidate (the first match of the duplicate-check loop), `report_result`
returns that candidate's id and only updates its statistics: the corpus
keeps its size, its ids and its stored byte data. -/
theorem c4_duplicate_keeps_corpus (s : SchedulerState) (sample : List ℕ)
    (res : RunResult) (o : SchedOracle) (c : Candidate)
    (hmatch : s.corpus.find? (sigMatches (resultSig res.coverage)) = some c) :
    (reportResult s sample res o).2 = some c.id ∧
      (reportResult s sample res o).1.corpus.length = s.corpus.length ∧
      (reportResult s sample res o).1.corpus.map Candidate.id =
        s.corpus.map Candidate.id ∧
      (reportResult s sample res o).1.corpus.map Candidate.data =
        s.corpus.map Candidate.data := by
  refine ⟨?_, ?_, ?_, ?_⟩ <;> simp only [reportResult, hmatch]
  all_goals first
    | rfl
    | exact updateFirst_length _ _ s.corpus
    | exact updateFirst_map_of_found Candidate.id _ _ s.corpus c hmatch rfl
    | exact updateFirst_map_of_found Candidate.data _ _ s.corpus c hmatch rfl

/-- Witness input for C4: one candidate whose stored signature equals the
signature of the reported coverage `[1]`. -/
def dupCand : Candidate := ⟨1, [], 1, 0, 0, 0, 0, some (toBitmap [1] BITMAP_SIZE)⟩

/-- Witness scheduler state for C4. -/
def dupSched : SchedulerState := ⟨2, [dupCand], [1], [], []⟩

/-- Witness for C4: reporting a duplicate-signature `ok` result updates
statistics only. -/
theorem c4_duplicate_keeps_corpus_witness :
    dupSched.corpus.find?
        (sigMatches (resultSig (RunResult.mk "ok" 0 (some [1])).coverage)) =
      some dupCand ∧
    (reportResult dupSched [] (RunResult.mk "ok" 0 (some [1])) ⟨0, false, 1⟩).2 =
      some dupCand.id ∧
    (reportResult dupSched [] (RunResult.mk "ok" 0 (some [1]))
          ⟨0, false, 1⟩).1.corpus.length = dupSched.corpus.length := by
  have hm : dupSched.corpus.find?
      (sigMatches (resultSig (RunResult.mk "ok" 0 (some [1])).coverage)) =
      some dupCand := by
    simp [dupSched, dupCand, List.find?, sigMatches, resultSig, covTruthy, popcount]
  refine ⟨hm, ?_, ?_⟩
  · exact (c4_duplicate_keeps_corpus dupSched [] _ ⟨0, false, 1⟩ dupCand hm).1
  · exact (c4_duplicate_keeps_corpus dupSched [] _ ⟨0, false, 1⟩ dupCand hm).2.1

/-- C5: a non-crash/hang result with no signature match and positive
novelty is admitted: a new candidate holding the sample bytes enters the
corpus with energy `min(20, max(6, 1 + 3·novelty))`, `last_novelty` equal
to the novelty, the result's coverage signature, and its id is marked
favored (timestamped) and returned. -/
theorem c5_novel_ok_admitted (s : SchedulerState) (sample : List ℕ)
    (res : RunResult) (o : SchedOracle)
    (hstatus : ¬(res.status = "crash" ∨ res.status = "hang"))
    (hnomatch : s.corpus.find? (sigMatches (resultSig res.coverage)) = none)
    (hnov : 0 < resultNovelty s.cumulative res.coverage)
    (hwf : ∀ c ∈ s.corpus, c.id < s.nextId) :
    (reportResult s sample res o).2 = some s.nextId ∧
      (reportResult s sample res o).1.corpus =
        s.corpus ++ [⟨s.nextId, sample,
          min 20 (max 6 (1 + (resultNovelty s.cumulative res.coverage : ℤ) * 3)),
          0, 0, 0, resultNovelty s.cumulative res.coverage,
          resultSig res.coverage⟩] ∧
      (s.nextId, o.now) ∈ (reportResult s sample res o).1.favored := by
  obtain ⟨σ, hσ⟩ : ∃ σ, resultSig res.coverage = some σ := by
    cases hc : res.coverage with
    | none => simp [resultNovelty, hc] at hnov
    | some cov =>
      by_cases ht : covTruthy cov
      · exact ⟨toBitmap cov BITMAP_SIZE, by simp [resultSig, ht]⟩
      · simp [resultNovelty, hc, ht] at hnov
  have hne : ∀ x ∈ s.corpus, x.id ≠ s.nextId := fun x hx => Nat.ne_of_lt (hwf x hx)
  have hins : dictInsertCand s.corpus
      ⟨s.nextId, sample, min 20 (max 6 (1 + (resultNovelty s.cumulative res.coverage : ℤ) * 3)),
        0, 0, 0, 0, none⟩ =
      s.corpus ++ [⟨s.nextId, sample,
        min 20 (max 6 (1 + (resultNovelty s.cumulative res.coverage : ℤ) * 3)),
        0, 0, 0, 0, none⟩] :=
    dictInsertCand_append _ s.corpus hne
  rw [hσ] at hnomatch
  have hupd : updateById
      (s.corpus ++ [⟨s.nextId, sample,
        min 20 (max 6 (1 + (resultNovelty s.cumulative res.coverage : ℤ) * 3)),
        0, 0, 0, 0, none⟩]) s.nextId
      (fun c => { c with lastNovelty := resultNovelty s.cumulative res.coverage,
                         covSig := some σ }) =
      s.corpus ++ [⟨s.nextId, sample,
        min 20 (max 6 (1 + (resultNovelty s.cumulative res.coverage : ℤ) * 3)),
        0, 0, 0, resultNovelty s.cumulative res.coverage, some σ⟩] :=
    updateById_append_singleton s.corpus _ _ hne
  refine ⟨?_, ?_, ?_⟩ <;>
    simp only [reportResult, hσ, hnomatch, if_neg hstatus, if_pos hnov, addSeed, hins, hupd]
  all_goals first
    | rfl
    | exact favInsert_mem s.nextId o.now _

/-- Witness scheduler state for C5: an empty corpus. -/
def novSched : SchedulerState := ⟨1, [], [], [], []⟩

/-- Witness result for C5: an `ok` run with the one-byte coverage `[1]`. -/
def novRes : RunResult := ⟨"ok", 0, some [1]⟩

/-- Witness for C5: the novel `ok` result is admitted with energy
`min(20, max(6, 1 + 3·1)) = 6`, marked favored and returned. -/
theorem c5_novel_ok_admitted_witness :
    (¬(novRes.status = "crash" ∨ novRes.status = "hang")) ∧
      novSched.corpus.find? (sigMatches (resultSig novRes.coverage)) = none ∧
      0 < resultNovelty novSched.cumulative novRes.coverage ∧
      (reportResult novSched [7] novRes ⟨5, false, 1⟩).2 = some novSched.nextId ∧
      (reportResult novSched [7] novRes ⟨5, false, 1⟩).1.corpus =
        novSched.corpus ++ [⟨novSched.nextId, [7],
          min 20 (max 6 (1 + (resultNovelty novSched.cumulative novRes.coverage : ℤ) * 3)),
          0, 0, 0, resultNovelty novSched.cumulative novRes.coverage,
          resultSig novRes.coverage⟩] ∧
      (novSched.nextId, (5 : ℚ)) ∈
        (reportResult novSched [7] novRes ⟨5, false, 1⟩).1.favored := by
  have h1 : ¬(novRes.status = "crash" ∨ novRes.status = "hang") := by simp [novRes]
  have h2 : novSched.corpus.find? (sigMatches (resultSig novRes.coverage)) = none := rfl
  have h3 : 0 < resultNovelty novSched.cumulative novRes.coverage := by decide
  have h4 : ∀ c ∈ novSched.corpus, c.id < novSched.nextId := by simp [novSched]
  obtain ⟨g1, g2, g3⟩ := c5_novel_ok_admitted novSched [7] novRes ⟨5, false, 1⟩ h1 h2 h3 h4
  exact ⟨h1, h2, h3, g1, g2, g3⟩

/-! ## The subprocess runner (`targets/command_target.py` and
`instrumentation/shm_manager.py`)

`CommandTarget.run` is modelled on its decision structure: whether the
launch `try` block raised (`launchFailed` — a missing binary, say), whether
the child timed out, and the child's return code.  In `shm_py`
instrumentation mode the exit code travels through `run_target_with_shm`,
which returns `exit_code if exit_code is not None else -1`. -/

/-- The fields of a `CommandTargetResult` that the status contract
mentions. -/
structure RunOutcome where
  status : String
  exitCode : Option ℤ
  timedOut : Bool

/-- The status classification at the end of `CommandTarget.run`:
`timed_out → hang`, else `exit_code is None → error`,
else `exit_code != 0 → crash`, else `ok`. -/
def classifyStatus (timedOut : Bool) (exitCode : Option ℤ) : String :=
  if timedOut then "hang"
  else
    match exitCode with
    | none => "error"
    | some c => if c ≠ 0 then "crash" else "ok"

/-- Embedding of `run_target_with_shm`'s returned exit code:
`exit_code if exit_code is not None else -1`. -/
def shmExitCode (rc : Option ℤ) : ℤ := rc.getD (-1)

/-- Embedding of `CommandTarget.run`: an exception anywhere in the launch block yields
the `error` result with `exit_code=None` and `timed_out=False`; otherwise
the result carries the (shm-translated, in `shm_py` mode) exit code and
timeout flag and classifies them. -/
def commandTargetRun (shmMode launchFailed timedOut : Bool) (rc : Option ℤ) :
    RunOutcome :=
  if launchFailed then ⟨"error", none, false⟩
  else
    let ec : Option ℤ := if shmMode then some (shmExitCode rc) else rc
    ⟨classifyStatus timedOut ec, ec, timedOut⟩

/-- C6: every result of `CommandTarget.run` — through the plain or the
`shm_py` path — has status `hang` exactly when it timed out, `crash`
exactly when it did not time out and carries a non-null nonzero exit code,
`error` exactly when it did not time out and carries a null exit code, and
`ok` exactly when it did not time out and exited 0. -/
theorem c6_status_classification (shmMode launchFailed timedOut : Bool)
    (rc : Option ℤ) :
    ((commandTargetRun shmMode launchFailed timedOut rc).status = "hang" ↔
      (commandTargetRun shmMode launchFailed timedOut rc).timedOut = true) ∧
    ((commandTargetRun shmMode launchFailed timedOut rc).status = "crash" ↔
      (commandTargetRun shmMode launchFailed timedOut rc).timedOut = false ∧
        ∃ c : ℤ, (commandTargetRun shmMode launchFailed timedOut rc).exitCode = some c ∧
          c ≠ 0) ∧
    ((commandTargetRun shmMode launchFailed timedOut rc).status = "error" ↔
      (commandTargetRun shmMode launchFailed timedOut rc).timedOut = false ∧
        (commandTargetRun shmMode launchFailed timedOut rc).exitCode = none) ∧
    ((commandTargetRun shmMode launchFailed timedOut rc).status = "ok" ↔
      (commandTargetRun shmMode launchFailed timedOut rc).timedOut = false ∧
        (commandTargetRun shmMode launchFailed timedOut rc).exitCode = some 0) := by
  cases launchFailed with
  | true => simp [commandTargetRun]
  | false =>
    cases timedOut with
    | true =>
      cases shmMode <;> cases rc <;>
        simp [commandTargetRun, classifyStatus]
    | false =>
      cases shmMode with
      | false =>
        cases rc with
        | none => simp [commandTargetRun, classifyStatus]
        | some c =>
          by_cases hc : c = 0 <;>
            simp [commandTargetRun, classifyStatus, hc]
      | true =>
        cases rc with
        | none => simp [commandTargetRun, classifyStatus, shmExitCode]
        | some c =>
          by_cases hc : c = 0 <;>
            simp [commandTargetRun, classifyStatus, shmExitCode, hc]

/-! ## File-mode command construction (`CommandTarget.run`, lines 101-112,
and `run_target_with_shm`, lines 114-125)

Argv tokens are modelled as `List Char`.  `part.replace("@@", path)` and
`"@@" in part` are modelled by a left-to-right scan. -/

/-- Embedding of `"@@" in part`: a left-to-right scan for two adjacent `'@'`. -/
def hasAA : List Char → Bool
  | [] => false
  | [_] => false
  | c :: d :: rest2 => (c == '@' && d == '@') || hasAA (d :: rest2)

/-- Embedding of `part.replace("@@", rep)`: replace non-overlapping occurrences left to
right. -/
def replaceAA (rep : List Char) : List Char → List Char
  | [] => []
  | [c] => [c]
  | c :: d :: rest2 =>
    if c == '@' && d == '@' then rep ++ replaceAA rep rest2
    else c :: replaceAA rep (d :: rest2)

/-- Whether `pat` occurs as a contiguous substring. -/
def hasSubstr (pat : List Char) : List Char → Bool
  | [] => pat.isEmpty
  | c :: rest => pat.isPrefixOf (c :: rest) || hasSubstr pat rest

/-- The command line `CommandTarget.run` builds in `file` mode: replace
`@@` with the input path in every token containing it; if no token
contained `@@`, append the path as the last argument. -/
def buildFileCmd (cmd : List (List Char)) (path : List Char) : List (List Char) :=
  if cmd.any hasAA then cmd.map (fun t => if hasAA t then replaceAA path t else t)
  else cmd ++ [path]

/-- Embedding of `run_target_with_shm` in `file` mode: its own temp input path is
appended as the last argument of whatever command it was handed. -/
def shmFileCmd (cmd : List (List Char)) (shmInputPath : List Char) :
    List (List Char) :=
  cmd ++ [shmInputPath]

lemma hasSubstr_of_isPrefixOf (pat s : List Char) (h : pat.isPrefixOf s = true) :
    hasSubstr pat s = true := by
  cases s with
  | nil =>
    cases pat with
    | nil => rfl
    | cons a as => simp [List.isPrefixOf] at h
  | cons c cs => simp [hasSubstr, h]

lemma hasSubstr_append_left (pat : List Char) :
    ∀ l₁ s : List Char, hasSubstr pat s = true → hasSubstr pat (l₁ ++ s) = true := by
  intro l₁
  induction l₁ with
  | nil => intro s h; simpa using h
  | cons c cs ih =>
    intro s h
    have := ih s h
    simp [hasSubstr, this]

lemma hasSubstr_infix (pat l₁ l₂ : List Char) :
    hasSubstr pat (l₁ ++ (pat ++ l₂)) = true := by
  refine hasSubstr_append_left pat l₁ (pat ++ l₂) ?_
  refine hasSubstr_of_isPrefixOf pat (pat ++ l₂) ?_
  rw [List.isPrefixOf_iff_prefix]
  exact List.prefix_append pat l₂

lemma hasSubstr_self (pat : List Char) : hasSubstr pat pat = true := by
  have := hasSubstr_infix pat [] []
  simpa using this

lemma replaceAA_infix (rep : List Char) :
    ∀ t : List Char, hasAA t = true → ∃ l₁ l₂, replaceAA rep t = l₁ ++ (rep ++ l₂) := by
  intro t
  induction t with
  | nil => intro h; simp [hasAA] at h
  | cons c rest ih =>
    intro h
    cases rest with
    | nil => simp [hasAA] at h
    | cons d rest2 =>
      by_cases hcd : (c == '@' && d == '@') = true
      · refine ⟨[], replaceAA rep rest2, ?_⟩
        simp [replaceAA, hcd]
      · have hr : hasAA (d :: rest2) = true := by
          have hh := h
          simp only [hasAA, Bool.or_eq_true] at hh
          rcases hh with hh | hh
          · exact absurd hh hcd
          · exact hh
        obtain ⟨l₁, l₂, hl⟩ := ih hr
        refine ⟨c :: l₁, l₂, ?_⟩
        simp only [replaceAA, List.cons_append]
        rw [if_neg (by simp only [hcd]; exact Bool.false_ne_true), hl]

lemma hasSubstr_replaceAA (rep : List Char) (t : List Char) (h : hasAA t = true) :
    hasSubstr rep (replaceAA rep t) = true := by
  obtain ⟨l₁, l₂, hl⟩ := replaceAA_infix rep t h
  rw [hl]
  exact hasSubstr_infix rep l₁ l₂

/-- C7 counterexample: with argv `["t", "@@", "@@"]` and temp path `"p"`,
both placeholder tokens receive the input path, so the number of child
arguments carrying the input path is 2, not exactly one. -/
theorem c7_exactly_one_path_counterexample :
    ¬ ((buildFileCmd [['t'], ['@', '@'], ['@', '@']] ['p']).countP
        (fun t => hasSubstr ['p'] t) = 1) := by
  decide

/-- C7 amended: in `file` mode the command line is the configured argv
with `@@` replaced by the temp input path in every token containing it,
or, when no token contains `@@`, with the path appended as the last
argument; at least one (not exactly one) argument carrying the input path
is conveyed, and the `shm_py` harness appends one more input-file path to
whatever command it receives. -/
theorem c7_file_mode_command (cmd : List (List Char)) (path : List Char) :
    (buildFileCmd cmd path =
      if cmd.any hasAA = true then
        cmd.map (fun t => if hasAA t then replaceAA path t else t)
      else cmd ++ [path]) ∧
    (buildFileCmd cmd path).any (fun t => hasSubstr path t) = true ∧
    (∀ p2, shmFileCmd (buildFileCmd cmd path) p2 = buildFileCmd cmd path ++ [p2]) := by
  refine ⟨by simp [buildFileCmd], ?_, fun _ => rfl⟩
  by_cases h : cmd.any hasAA = true
  · rw [List.any_eq_true] at h
    obtain ⟨t, ht, hAA⟩ := h
    rw [List.any_eq_true]
    refine ⟨replaceAA path t, ?_, hasSubstr_replaceAA path t hAA⟩
    have : buildFileCmd cmd path =
        cmd.map (fun t => if hasAA t then replaceAA path t else t) := by
      simp only [buildFileCmd]
      rw [if_pos (List.any_eq_true.mpr ⟨t, ht, hAA⟩)]
    rw [this]
    refine List.mem_map.mpr ⟨t, ht, ?_⟩
    simp [hAA]
  · have hfalse : cmd.any hasAA = false := by
      cases hval : cmd.any hasAA with
      | false => rfl
      | true => exact absurd hval h
    have : buildFileCmd cmd path = cmd ++ [path] := by
      simp only [buildFileCmd]
      rw [if_neg (by simp [hfalse])]
    rw [this, List.any_eq_true]
    exact ⟨path, by simp, hasSubstr_self path⟩

/-! ## The aggression manager (`core/aggression.py`) -/

/-- The `AggressionConfig` dataclass with its default values. -/
structure AggressionConfig where
  scale : ℚ := 2
  minDuration : ℚ := 15
  cooldown : ℚ := 60
  decay : ℚ := 9 / 10

/-- The mutable state of an `AggressionManager`. -/
structure AggressionState where
  aggressive : Bool
  scale : ℚ
  lastEnter : ℚ
  lastExit : ℚ

/-- Embedding of `AggressionManager.__init__`. -/
def initAggression : AggressionState := ⟨false, 1, 0, 0⟩

/-- Embedding of `AggressionManager.update(slow_growth)` at time `now`: enter the
aggressive state (scale := cfg.scale) on `slow_growth` when not aggressive
and outside the cooldown; leave it (scale := 1.0, record the exit time) on
`not slow_growth` when aggressive and the minimum duration has passed. -/
def updateAggression (cfg : AggressionConfig) (s : AggressionState)
    (slowGrowth : Bool) (now : ℚ) : AggressionState :=
  if slowGrowth ∧ ¬s.aggressive then
    if now - s.lastExit ≥ cfg.cooldown then
      { s with aggressive := true, scale := cfg.scale, lastEnter := now }
    else s
  else if ¬slowGrowth ∧ s.aggressive then
    if now - s.lastEnter ≥ cfg.minDuration then
      ⟨false, 1, s.lastEnter, now⟩
    else s
  else s

/-- The default `AggressionConfig()` (scale 2.0, min duration 15 s,
cooldown 60 s). -/
def defaultAggressionConfig : AggressionConfig := {}

/-- C8: under the default configuration, `update(true)` enters the
aggressive state (scale set to the configured value 2 > 1, entry time
recorded) exactly when the manager is not already aggressive and at least
60 s have passed since the last exit, and otherwise changes nothing; and
`update(false)` exits (scale 1.0, exit time recorded) exactly when the
manager is aggressive and at least 15 s have passed since entry, and
otherwise changes nothing — in particular it never exits before the
minimum duration. -/
theorem c8_aggression_hysteresis (s : AggressionState) (now : ℚ) :
    (updateAggression defaultAggressionConfig s true now =
      if s.aggressive = false ∧ now - s.lastExit ≥ 60 then
        { s with aggressive := true, scale := 2, lastEnter := now }
      else s) ∧
    (updateAggression defaultAggressionConfig s false now =
      if s.aggressive = true ∧ now - s.lastEnter ≥ 15 then
        ⟨false, 1, s.lastEnter, now⟩
      else s) := by
  cases hA : s.aggressive with
  | false =>
    constructor
    · by_cases hc : now - s.lastExit ≥ 60 <;>
        simp [updateAggression, defaultAggressionConfig, hA, hc]
    · simp [updateAggression, hA]
  | true =>
    constructor
    · simp [updateAggression, hA]
    · by_cases hd : now - s.lastEnter ≥ 15 <;>
        simp [updateAggression, defaultAggressionConfig, hA, hd]

/-! ## The `record_run` call interface (`core/monitor.py` vs `fuzzer.py`)

Python binds keyword arguments by name; a keyword absent from the callee's
parameter list raises `TypeError`.  The two sides of the
`monitor.record_run(...)` call in the main loop are embedded as the
literal name lists. -/

/-- The keyword parameters `Monitor.record_run` accepts (besides `self`),
from its signature in `core/monitor.py`. -/
def recordRunParams : List String :=
  ["sample_id", "sample", "status", "wall_time", "cov", "artifact_path"]

/-- The keywords the main loop passes at the `monitor.record_run(...)`
call site in `fuzz_loop` (`fuzzer.py`, lines 283-290). -/
def fuzzLoopRecordRunKwargs : List String :=
  ["sample_id", "sample", "status", "wall_time", "cov", "artifact_path", "stderr"]

/-- The fields of the `RunRecord` dataclass in `core/monitor.py`. -/
def runRecordFields : List String :=
  ["timestamp", "sample_id", "status", "wall_time", "novelty", "cum_coverage",
    "artifact_path"]

/-- C9 (code bug evidence): the main loop passes `stderr` to
`Monitor.record_run`, but `record_run` has no `stderr` parameter and
`RunRecord` has no `stderr` field — the keyword call cannot bind. -/
theorem c9_stderr_not_accepted :
    "stderr" ∈ fuzzLoopRecordRunKwargs ∧
      "stderr" ∉ recordRunParams ∧
      "stderr" ∉ runRecordFields := by
  refine ⟨?_, ?_, ?_⟩ <;> decide

/-! ## The arithmetic mutator (`mutators/arith_mutator.py`)

Bytes are `ℕ` values; words are decoded/encoded with
`int.from_bytes`/`int.to_bytes`.  The default endianness is little. -/

/-- Embedding of `int.from_bytes(bs, 'little')` over byte values. -/
def fromLEb : List ℕ → ℕ
  | [] => 0
  | b :: bs => b + 256 * fromLEb bs

/-- Embedding of `value.to_bytes(size, 'little')` (low byte first). -/
def toLEb : ℕ → ℕ → List ℕ
  | 0, _ => []
  | s + 1, n => n % 256 :: toLEb s (n / 256)

/-- Embedding of `int.from_bytes(bs, byteorder)` with `little = true`. -/
def wordFromBytes (little : Bool) (bs : List ℕ) : ℕ :=
  if little then fromLEb bs else fromLEb bs.reverse

/-- Embedding of `value.to_bytes(size, byteorder)` with `little = true`. -/
def wordToBytes (little : Bool) (size val : ℕ) : List ℕ :=
  if little then toLEb size val else (toLEb size val).reverse

/-- The default `sizes=(1, 2, 4)` of `ArithMutator`. -/
def defaultSizes : List ℕ := [1, 2, 4]

/-- Embedding of `ArithMutator._apply_word(data, off, size, delta)`: add `delta` to the
`size`-byte word at `off` (wrapping `mod 2^(8·size)` when `wrap`, else
saturating to `[0, 2^(8·size) - 1]`), writing the result back in place;
`None` when the field is incomplete or the width unsupported. -/
def applyWord (sizes : List ℕ) (little wrap : Bool) (data : List ℕ)
    (off size : ℕ) (delta : ℤ) : Option (List ℕ) :=
  let sl := (data.drop off).take size
  if sl.length < size then none
  else if size = 1 then
    let val : ℤ := (sl.headD 0 : ℕ)
    let newv : ℕ :=
      if wrap then ((val + delta) % 256).toNat
      else (max 0 (min 255 (val + delta))).toNat
    some (data.take off ++ [newv] ++ data.drop (off + 1))
  else if size ∈ sizes then
    let val : ℤ := (wordFromBytes little sl : ℕ)
    let mask : ℤ := 2 ^ (size * 8) - 1
    let newv : ℕ :=
      if wrap then ((val + delta) % 2 ^ (size * 8)).toNat
      else (max 0 (min mask (val + delta))).toNat
    some (data.take off ++ wordToBytes little size newv ++ data.drop (off + size))
  else none

/-- The variants `ArithMutator.mutate` can yield for an input under the
default configuration (positions and deltas are randomly sampled; a
variant is yielded exactly when `_apply_word` succeeds at some in-range
position, supported width and integer delta). -/
def arithMutateYields (wrap : Bool) (data v : List ℕ) : Prop :=
  ∃ pos size delta, size ∈ defaultSizes ∧ pos + size ≤ data.length ∧
    applyWord defaultSizes true wrap data pos size delta = some v

lemma toLEb_length : ∀ s n : ℕ, (toLEb s n).length = s := by
  intro s
  induction s with
  | zero => intro n; rfl
  | succ s ih => intro n; simp [toLEb, ih]

lemma fromLEb_toLEb : ∀ s n : ℕ, n < 256 ^ s → fromLEb (toLEb s n) = n := by
  intro s
  induction s with
  | zero =>
    intro n h
    interval_cases n
    rfl
  | succ s ih =>
    intro n h
    have hdiv : n / 256 < 256 ^ s := by
      rw [Nat.div_lt_iff_lt_mul (by norm_num)]
      calc n < 256 ^ (s + 1) := h
        _ = 256 ^ s * 256 := by ring
    simp only [toLEb, fromLEb, ih (n / 256) hdiv]
    omega

lemma pow_two_mul_eight (s : ℕ) : (2 : ℕ) ^ (s * 8) = 256 ^ s := by
  rw [show (256 : ℕ) = 2 ^ 8 from rfl, ← pow_mul, mul_comm]

/-- C10: every variant the arithmetic mutator can yield in the default
(wrapping) mode has exactly the input's length and differs from the input
only inside one window of width 1, 2 or 4 bytes, whose little-endian
integer value became the old value plus a delta, reduced mod `2^(8·width)`. -/
theorem c10_arith_variants_are_windowed (data v : List ℕ)
    (h : arithMutateYields true data v) :
    v.length = data.length ∧
    ∃ pos size, size ∈ defaultSizes ∧ pos + size ≤ data.length ∧
      v.take pos = data.take pos ∧
      v.drop (pos + size) = data.drop (pos + size) ∧
      ∃ delta : ℤ,
        fromLEb ((v.drop pos).take size) =
          ((((fromLEb ((data.drop pos).take size) : ℕ) : ℤ) + delta) %
            2 ^ (size * 8)).toNat := by
  obtain ⟨pos, size, delta, hs, hlen, happ⟩ := h
  have hsl : ((data.drop pos).take size).length = size := by
    rw [List.length_take, List.length_drop]
    omega
  have hA : (data.take pos).length = pos := by
    rw [List.length_take]
    omega
  simp only [applyWord, wordFromBytes, wordToBytes, if_true] at happ
  rw [hsl, if_neg (lt_irrefl size)] at happ
  by_cases h1 : size = 1
  · subst h1
    rw [if_pos rfl, Option.some_inj] at happ
    obtain ⟨b, hb⟩ := List.length_eq_one.mp hsl
    have hv : v = data.take pos ++
        ([((((data.drop pos).take 1).headD 0 : ℤ) + delta) % 256 |>.toNat] ++
          data.drop (pos + 1)) := by
      rw [← happ, List.append_assoc]
    constructor
    · rw [hv]
      simp only [List.length_append, List.length_cons, List.length_nil,
        List.length_drop, hA]
      omega
    · refine ⟨pos, 1, hs, hlen, ?_, ?_, delta, ?_⟩
      · rw [hv, List.take_left' hA]
      · rw [hv, ← List.append_assoc, List.drop_left' (by simp [hA])]
      · rw [hv, List.drop_left' hA, hb]
        simp [fromLEb]
  · rw [if_neg h1, if_pos hs, Option.some_inj] at happ
    have hMpos : (0 : ℤ) < 2 ^ (size * 8) := by positivity
    set x : ℤ := ((fromLEb ((data.drop pos).take size) : ℕ) : ℤ) + delta with hx
    set newv : ℕ := (x % 2 ^ (size * 8)).toNat with hnewv
    have hbound : newv < 256 ^ size := by
      have h0 : 0 ≤ x % 2 ^ (size * 8) := Int.emod_nonneg x (ne_of_gt hMpos)
      have h2 : x % 2 ^ (size * 8) < 2 ^ (size * 8) := Int.emod_lt_of_pos x hMpos
      rw [hnewv]
      rw [Int.toNat_lt h0]
      calc x % 2 ^ (size * 8) < 2 ^ (size * 8) := h2
        _ = ((256 ^ size : ℕ) : ℤ) := by
            push_cast
            rw [show ((256 : ℤ)) = 2 ^ 8 by norm_num, ← pow_mul, mul_comm]
    have hv : v = data.take pos ++ (toLEb size newv ++ data.drop (pos + size)) := by
      rw [← happ, List.append_assoc]
    have hw : (toLEb size newv).length = size := toLEb_length size newv
    constructor
    · rw [hv]
      simp only [List.length_append, hA, hw, List.length_drop]
      omega
    · refine ⟨pos, size, hs, hlen, ?_, ?_, delta, ?_⟩
      · rw [hv, List.take_left' hA]
      · rw [hv, ← List.append_assoc, List.drop_left' (by simp [hA, hw])]
      · rw [hv, List.drop_left' hA, List.take_left' hw]
        rw [fromLEb_toLEb size newv hbound]

/-- Witness for C10: the one-byte input `[5]` mutated at position 0 with
width 1 and delta `+1` yields `[6]`. -/
theorem c10_arith_variants_are_windowed_witness :
    arithMutateYields true [5] [6] ∧
      ([6] : List ℕ).length = ([5] : List ℕ).length ∧
      ∃ pos size, size ∈ defaultSizes ∧ pos + size ≤ ([5] : List ℕ).length ∧
        ([6] : List ℕ).take pos = ([5] : List ℕ).take pos ∧
        ([6] : List ℕ).drop (pos + size) = ([5] : List ℕ).drop (pos + size) ∧
        ∃ delta : ℤ,
          fromLEb ((([6] : List ℕ).drop pos).take size) =
            ((((fromLEb ((([5] : List ℕ).drop pos).take size) : ℕ) : ℤ) + delta) %
              2 ^ (size * 8)).toNat := by
  have hy : arithMutateYields true [5] [6] := ⟨0, 1, 1, by decide, by decide, by decide⟩
  exact ⟨hy, c10_arith_variants_are_windowed [5] [6] hy⟩

end MiniAFL
